import Mathlib

/-!
Shallow embedding of `merged_source_dumper.py`, a directory-walking file
concatenator, together with proofs about its behaviour.

The filesystem is modelled as a tree of directories (`FSTree`); a missing
root directory is `Option.none`.  `os.walk` becomes the recursive function
`walk`, `os.path.join` becomes `osPathJoin` (POSIX semantics), and reading a
file becomes an abstract map `readF : String → Except String String` (an
`Except.error` models the exception raised by a failed `open`/`read`, whose
message the code interpolates into the placeholder).  The I/O performed by
`collect_source_files` is recorded as a list of `Event`s.
-/

/-- Boolean test that the first character list is a prefix of the second
(character-by-character, hence exact and case-sensitive). -/
def charsPrefix : List Char → List Char → Bool
  | [], _ => true
  | _ :: _, [] => false
  | a :: as, b :: bs => a == b && charsPrefix as bs

/-- Model of Python `str.startswith`: codepoint-level exact prefix test. -/
def strStartsWith (s pre : String) : Bool :=
  charsPrefix pre.data s.data

/-- Model of Python `str.endswith` (used by the extension filter):
codepoint-level exact, case-sensitive suffix test. -/
def strEndsWith (s suf : String) : Bool :=
  charsPrefix suf.data.reverse s.data.reverse

/-- Lexicographic (codepoint) order on character lists: the comparison
Python uses on strings. -/
def charsLe : List Char → List Char → Bool
  | [], _ => true
  | _ :: _, [] => false
  | a :: as, b :: bs => a < b || (a == b && charsLe as bs)

/-- Model of Python string comparison `a <= b`: lexicographic by
codepoint. -/
def strLe (a b : String) : Bool :=
  charsLe a.data b.data

/-- Model of POSIX `os.path.join(a, b)`: if `b` is absolute the result is
`b`; if `a` is empty or ends with the separator the result is `a ++ b`;
otherwise a separator is inserted. -/
def osPathJoin (a b : String) : String :=
  if strStartsWith b "/" then b
  else if a = "" || strEndsWith a "/" then a ++ b
  else a ++ "/" ++ b

/-- Directory path `g` normalised to end with exactly one trailing
separator (empty stays empty), so that joining a relative name is plain
string concatenation.  Helper for reasoning about `osPathJoin`. -/
def withSep (g : String) : String :=
  if g = "" then "" else if strEndsWith g "/" then g else g ++ "/"

/-- A filesystem tree: one directory with named subdirectories and the
names of the regular files it contains. -/
inductive FSTree where
  | dir (subdirs : List (String × FSTree)) (files : List String)

/-- Valid entry name on a real filesystem: nonempty and containing no
path separator. -/
def validName (s : String) : Bool :=
  decide (s.data ≠ [] ∧ '/' ∉ s.data)

mutual
/-- Well-formedness of a modelled filesystem: in every directory, entry
names are valid and pairwise distinct.  Every real directory tree
satisfies this. -/
def wfTree : FSTree → Bool
  | .dir subs files =>
      files.all validName && (subs.map Prod.fst).all validName &&
      decide files.Nodup && decide (subs.map Prod.fst).Nodup &&
      wfSubs subs

/-- Well-formedness of a list of subdirectories. -/
def wfSubs : List (String × FSTree) → Bool
  | [] => true
  | (_, t) :: rest => wfTree t && wfSubs rest
end

mutual
/-- Model of `os.walk(g)` on an existing directory tree: yields the pair
(directory path, file names) for the directory itself, then recursively
for each subdirectory in enumeration order (top-down, `followlinks`
defaulting to false means the tree really is a tree). -/
def walk (g : String) : FSTree → List (String × List String)
  | .dir subs files => (g, files) :: walkList g subs

/-- Walk of the subdirectory list of a directory whose path is `g`. -/
def walkList (g : String) : List (String × FSTree) → List (String × List String)
  | [] => []
  | (d, t) :: rest => walk (osPathJoin g d) t ++ walkList g rest
end

/-- Model of `os.walk(root_dir)`: a missing root yields nothing. -/
def walkOpt (root_dir : String) : Option FSTree → List (String × List String)
  | none => []
  | some t => walk root_dir t

/-- The configured extension set `exts` of `collect_source_files`. -/
def exts : List String :=
  [".ts", ".tsx", ".js", ".jsx", ".css", ".md", ".json"]

/-- The filter `any(file.endswith(ext) for ext in exts)`. -/
def matchesExt (file : String) : Bool :=
  exts.any (fun ext => strEndsWith file ext)

/-- The `collected_paths` list built by the walk loop: for every directory
in walk order, for every file whose name matches, append
`os.path.join(folder, file)`. -/
def collected_paths (root_dir : String) (fs : Option FSTree) : List String :=
  (walkOpt root_dir fs).flatMap
    (fun fl => (fl.2.filter matchesExt).map (fun file => osPathJoin fl.1 file))

/-- The part of the collected path list contributed by a list of
subdirectories of the directory at path `g`. -/
def collectSubs (g : String) (subs : List (String × FSTree)) : List String :=
  (walkList g subs).flatMap
    (fun fl => (fl.2.filter matchesExt).map (fun file => osPathJoin fl.1 file))

/-- The result of `collected_paths.sort()`: Python sorts strings
lexicographically by codepoint; any sorting algorithm yields the same
list, here insertion sort. -/
def sorted_paths (root_dir : String) (fs : Option FSTree) : List String :=
  List.insertionSort (fun a b => strLe a b = true) (collected_paths root_dir fs)

/-- One I/O action performed by the program. -/
inductive Event where
  /-- `open(path, "w", ...)`: create or truncate `path` for writing. -/
  | openWrite (path : String)
  /-- `out.write(s)`. -/
  | writeStr (s : String)
  /-- `open(path, "r", ...)`: open `path` for reading. -/
  | openRead (path : String)
  /-- `print(s)` to standard output. -/
  | printOut (s : String)
deriving DecidableEq, Repr

/-- The delimiter written before each file's contents:
`f"\n\n===== FILE: \x7bpath\x7d =====\n\n"`. -/
def delimiter (path : String) : String :=
  "\n\n===== FILE: " ++ path ++ " =====\n\n"

/-- What the `try`/`except` around the read writes for one file: the
file's decoded contents on success, the placeholder
`f"[ERROR READING FILE: \x7be\x7d]"` when the read raises. -/
def readBlock (readF : String → Except String String) (path : String) : String :=
  match readF path with
  | .ok c => c
  | .error e => "[ERROR READING FILE: " ++ e ++ "]"

/-- Events of one iteration of the emission loop body. -/
def pathEvents (readF : String → Except String String) (path : String) : List Event :=
  [.writeStr (delimiter path), .openRead path, .writeStr (readBlock readF path)]

/-- Events of a whole run of `collect_source_files`: open the output file
for writing once, then emit every sorted path's block. -/
def runEvents (root_dir output_file : String) (fs : Option FSTree)
    (readF : String → Except String String) : List Event :=
  .openWrite output_file :: (sorted_paths root_dir fs).flatMap (pathEvents readF)

/-- A run's observable outcome: its I/O events and its return value. -/
structure RunResult where
  events : List Event
  ret : String
deriving DecidableEq, Repr

/-- Model of `collect_source_files(root_dir, output_file)` on filesystem
`fs` with read behaviour `readF`; the function returns `output_file`. -/
def collect_source_files (root_dir output_file : String) (fs : Option FSTree)
    (readF : String → Except String String) : RunResult :=
  { events := runEvents root_dir output_file fs readF, ret := output_file }

/-- The strings passed to `out.write`, in order. -/
def written (evs : List Event) : List String :=
  evs.filterMap (fun e => match e with | .writeStr s => some s | _ => none)

/-- Test whether an event opens a file for writing. -/
def isOpenWriteEv : Event → Bool
  | .openWrite _ => true
  | _ => false

/-- Everything the emission loop writes for one path: the delimiter (blank
line, marker line, blank line) followed by the contents or the error
placeholder. -/
def blockOf (readF : String → Except String String) (path : String) : String :=
  delimiter path ++ readBlock readF path

/-- The body of the output document: everything written to the output
file, concatenated. -/
def document (root_dir output_file : String) (fs : Option FSTree)
    (readF : String → Except String String) : String :=
  String.join (written (runEvents root_dir output_file fs readF))

/-- Default value of the `root_dir` parameter. -/
def defaultRootDir : String := "./src"

/-- Default value of the `output_file` parameter. -/
def defaultOutputFile : String := "merged_source_dump.txt"

/-- Events of executing the module top level (`import` or direct run):
`final_doc = collect_source_files()` followed by
`print("Merged document saved as:", final_doc)`.  The source contains no
`if __name__ == "__main__"` guard, so the events do not depend on whether
the module is the main module (`_nameIsMain`). -/
def moduleEvents (_nameIsMain : Bool) (fs : Option FSTree)
    (readF : String → Except String String) : List Event :=
  let r := collect_source_files defaultRootDir defaultOutputFile fs readF
  r.events ++ [.printOut ("Merged document saved as: " ++ r.ret)]

/-- Predicate: no file anywhere under the root matches the extension
filter. -/
def noQualifying (root_dir : String) (fs : Option FSTree) : Prop :=
  ∀ pr ∈ walkOpt root_dir fs, ∀ n ∈ pr.2, matchesExt n = false

mutual
/-- Two trees describe the same filesystem up to the enumeration order of
directory entries: file lists are permuted, subdirectory lists are
permuted with recursively equivalent subtrees. -/
inductive FSEquiv : FSTree → FSTree → Prop where
  | dir {subs₁ subs₂ : List (String × FSTree)} {files₁ files₂ : List String} :
      files₁.Perm files₂ → FSEquivSubs subs₁ subs₂ →
      FSEquiv (.dir subs₁ files₁) (.dir subs₂ files₂)

/-- Permutation-with-equivalence of subdirectory lists, mirroring the
constructors of `List.Perm`. -/
inductive FSEquivSubs : List (String × FSTree) → List (String × FSTree) → Prop where
  | nil : FSEquivSubs [] []
  | cons (d : String) {t₁ t₂ : FSTree} {r₁ r₂ : List (String × FSTree)} :
      FSEquiv t₁ t₂ → FSEquivSubs r₁ r₂ →
      FSEquivSubs ((d, t₁) :: r₁) ((d, t₂) :: r₂)
  | swap (p q : String × FSTree) (r : List (String × FSTree)) :
      FSEquivSubs (p :: q :: r) (q :: p :: r)
  | trans {a b c : List (String × FSTree)} :
      FSEquivSubs a b → FSEquivSubs b c → FSEquivSubs a c
end

-- Sanity checks of the embedding on the spec's example scenario.
example :
    walk "./src" (.dir [] ["a.ts", "b.md", "c.png"]) =
      [("./src", ["a.ts", "b.md", "c.png"])] := by decide

example :
    collected_paths "./src" (some (.dir [] ["a.ts", "b.md", "c.png"])) =
      ["./src/a.ts", "./src/b.md"] := by decide

example :
    sorted_paths "./src" (some (.dir [] ["b.md", "a.ts"])) =
      ["./src/a.ts", "./src/b.md"] := by decide

example :
    document "./src" "out.txt" (some (.dir [] ["b.md", "a.ts"]))
      (fun p => if p = "./src/a.ts" then .ok "x" else .ok "y") =
    "\n\n===== FILE: ./src/a.ts =====\n\nx\n\n===== FILE: ./src/b.md =====\n\ny" := by
  decide

/-! ### Character-level string lemmas -/

theorem charsPrefix_iff (a b : List Char) :
    charsPrefix a b = true ↔ ∃ t, b = a ++ t := by
  induction a generalizing b with
  | nil => simp [charsPrefix]
  | cons x xs ih =>
    cases b with
    | nil =>
      simp [charsPrefix]
    | cons y ys =>
      simp only [charsPrefix, Bool.and_eq_true, beq_iff_eq, ih, List.cons_append,
        List.cons.injEq]
      constructor
      · rintro ⟨rfl, t, rfl⟩
        exact ⟨t, rfl, rfl⟩
      · rintro ⟨t, rfl, rfl⟩
        exact ⟨rfl, t, rfl⟩

theorem strEndsWith_iff (s e : String) :
    strEndsWith s e = true ↔ ∃ pre : String, s = pre ++ e := by
  rw [strEndsWith, charsPrefix_iff]
  constructor
  · rintro ⟨t, ht⟩
    refine ⟨⟨t.reverse⟩, String.ext ?_⟩
    rw [String.data_append]
    have := congrArg List.reverse ht
    simpa [List.reverse_append] using this
  · rintro ⟨pre, rfl⟩
    exact ⟨pre.data.reverse, by simp [String.data_append, List.reverse_append]⟩

theorem strEndsWith_data_iff (s e : String) :
    strEndsWith s e = true ↔ ∃ pre : List Char, s.data = pre ++ e.data := by
  rw [strEndsWith_iff]
  constructor
  · rintro ⟨pre, rfl⟩
    exact ⟨pre.data, String.data_append pre e⟩
  · rintro ⟨pre, hpre⟩
    exact ⟨⟨pre⟩, String.ext (by rw [String.data_append]; exact hpre)⟩

theorem charsLe_iff_not_lex (l₁ l₂ : List Char) :
    charsLe l₁ l₂ = true ↔ ¬ List.Lex (· < ·) l₂ l₁ := by
  induction l₁ generalizing l₂ with
  | nil =>
    cases l₂ with
    | nil => simp [charsLe]
    | cons y ys => simp [charsLe]
  | cons x xs ih =>
    cases l₂ with
    | nil =>
      simp only [charsLe, Bool.false_eq_true, false_iff, not_not]
      exact List.Lex.nil
    | cons y ys =>
      simp only [charsLe, Bool.or_eq_true, Bool.and_eq_true, beq_iff_eq, ih,
        decide_eq_true_eq]
      constructor
      · rintro (hlt | ⟨rfl, hnot⟩) hlex
        · cases hlex with
          | rel h => exact absurd hlt (lt_asymm h)
          | cons h => exact absurd hlt (lt_irrefl _)
        · cases hlex with
          | rel h => exact absurd h (lt_irrefl _)
          | cons h => exact hnot h
      · intro hnot
        rcases lt_trichotomy x y with hlt | rfl | hgt
        · exact Or.inl hlt
        · exact Or.inr ⟨rfl, fun h => hnot (List.Lex.cons h)⟩
        · exact absurd (List.Lex.rel hgt) hnot

theorem strLe_iff (a b : String) : strLe a b = true ↔ a ≤ b := by
  rw [strLe, charsLe_iff_not_lex, ← not_lt]
  constructor
  · intro h hlt
    exact h (by simpa [String.lt_iff_toList_lt, List.lt_iff_lex_lt] using hlt)
  · intro h hlex
    exact h (by simpa [String.lt_iff_toList_lt, List.lt_iff_lex_lt] using hlex)

theorem string_append_left_cancel {x a b : String} (h : x ++ a = x ++ b) : a = b := by
  apply String.ext
  have := congrArg String.data h
  rw [String.data_append, String.data_append] at this
  exact List.append_cancel_left this

/-! ### Lemmas about `osPathJoin` and `withSep` -/

theorem validName_iff (s : String) :
    validName s = true ↔ s.data ≠ [] ∧ '/' ∉ s.data := by
  simp [validName]

theorem charsPrefix_slash {l : List Char} (h1 : l ≠ []) (h2 : '/' ∉ l)
    (m : List Char) : charsPrefix ['/'] (l ++ m) = false := by
  cases l with
  | nil => exact absurd rfl h1
  | cons c cs =>
    have hc : c ≠ '/' := fun h => h2 (h ▸ List.mem_cons_self c cs)
    simp [charsPrefix, Ne.symm hc]

theorem strStartsWith_slash_false {f : String} (hf : validName f = true) :
    strStartsWith f "/" = false := by
  rw [validName_iff] at hf
  rw [strStartsWith]
  show charsPrefix ['/'] f.data = false
  have h : f.data = f.data ++ [] := by simp
  rw [h]
  exact charsPrefix_slash hf.1 hf.2 []

theorem strEndsWith_slash_append {d : String} (hd : validName d = true)
    (x : String) : strEndsWith (x ++ d) "/" = false := by
  rw [validName_iff] at hd
  rw [strEndsWith]
  show charsPrefix ['/'] (x ++ d).data.reverse = false
  rw [String.data_append, List.reverse_append]
  exact charsPrefix_slash (by simpa using hd.1) (by simpa using hd.2) _

theorem strEndsWith_slash {d : String} (hd : validName d = true) :
    strEndsWith d "/" = false := by
  rw [validName_iff] at hd
  rw [strEndsWith]
  show charsPrefix ['/'] d.data.reverse = false
  have h : d.data.reverse = d.data.reverse ++ [] := by simp
  rw [h]
  exact charsPrefix_slash (by simpa using hd.1) (by simpa using hd.2) []

theorem osPathJoin_eq_withSep {f : String} (hf : validName f = true)
    (g : String) : osPathJoin g f = withSep g ++ f := by
  rw [osPathJoin, strStartsWith_slash_false hf, withSep]
  by_cases hg : g = ""
  · subst hg
    simp
  · by_cases he : strEndsWith g "/" = true
    · simp [hg, he]
    · simp only [Bool.false_eq_true, if_false, if_neg hg,
        Bool.or_eq_true, decide_eq_true_eq]
      rw [if_neg (by simp [hg, he]), if_neg (by simp at he ⊢; exact he)]

theorem withSep_osPathJoin {d : String} (hd : validName d = true)
    (g : String) : withSep (osPathJoin g d) = withSep g ++ d ++ "/" := by
  rw [osPathJoin_eq_withSep hd, withSep]
  have hne : ¬ (withSep g ++ d) = "" := by
    intro h
    have := congrArg String.data h
    rw [String.data_append] at this
    rcases List.append_eq_nil.mp this with ⟨-, h2⟩
    exact ((validName_iff d).mp hd).1 h2
  rw [if_neg hne, strEndsWith_slash_append hd (withSep g)]
  simp

theorem osPathJoin_right_inj {f₁ f₂ : String} (h₁ : validName f₁ = true)
    (h₂ : validName f₂ = true) {g : String}
    (h : osPathJoin g f₁ = osPathJoin g f₂) : f₁ = f₂ := by
  rw [osPathJoin_eq_withSep h₁, osPathJoin_eq_withSep h₂] at h
  exact string_append_left_cancel h

theorem osPathJoin_data {f : String} (hf : validName f = true) (g : String) :
    (osPathJoin g f).data = (withSep g).data ++ f.data := by
  rw [osPathJoin_eq_withSep hf, String.data_append]

theorem withSep_osPathJoin_data {d : String} (hd : validName d = true)
    (g : String) :
    (withSep (osPathJoin g d)).data = (withSep g).data ++ (d.data ++ ['/']) := by
  rw [withSep_osPathJoin hd, String.data_append, String.data_append]
  show (withSep g).data ++ d.data ++ ['/'] = _
  rw [List.append_assoc]

/-! ### Structure of the walk and of the collected path list -/

theorem walkList_eq_flatMap (g : String) (subs : List (String × FSTree)) :
    walkList g subs = subs.flatMap (fun p => walk (osPathJoin g p.1) p.2) := by
  induction subs with
  | nil => rfl
  | cons p rest ih =>
    obtain ⟨d, t⟩ := p
    rw [walkList, ih, List.flatMap_cons]

theorem collected_some_dir (g : String) (subs : List (String × FSTree))
    (files : List String) :
    collected_paths g (some (.dir subs files)) =
      (files.filter matchesExt).map (fun f => osPathJoin g f) ++ collectSubs g subs := by
  show (walk g (.dir subs files)).flatMap _ = _
  rw [walk, List.flatMap_cons]
  rfl

theorem collectSubs_nil (g : String) : collectSubs g [] = [] := rfl

theorem collectSubs_cons (g d : String) (t : FSTree)
    (rest : List (String × FSTree)) :
    collectSubs g ((d, t) :: rest) =
      collected_paths (osPathJoin g d) (some t) ++ collectSubs g rest := by
  show (walkList g ((d, t) :: rest)).flatMap _ = _
  rw [walkList, List.flatMap_append]
  rfl

theorem mem_collected {p root : String} {fs : Option FSTree} :
    p ∈ collected_paths root fs ↔
      ∃ fl ∈ walkOpt root fs, ∃ n ∈ fl.2,
        matchesExt n = true ∧ osPathJoin fl.1 n = p := by
  simp [collected_paths, List.mem_filter, and_assoc]

theorem mem_collectSubs {p g : String} {subs : List (String × FSTree)} :
    p ∈ collectSubs g subs ↔
      ∃ q ∈ subs, p ∈ collected_paths (osPathJoin g q.1) (some q.2) := by
  induction subs with
  | nil => simp [collectSubs_nil]
  | cons q rest ih =>
    obtain ⟨d, t⟩ := q
    simp [collectSubs_cons, ih]

theorem wfSubs_iff (subs : List (String × FSTree)) :
    wfSubs subs = true ↔ ∀ p ∈ subs, wfTree p.2 = true := by
  induction subs with
  | nil => simp [wfSubs]
  | cons p rest ih =>
    obtain ⟨d, t⟩ := p
    rw [wfSubs]
    simp [ih]

theorem wfTree_dir_iff {subs : List (String × FSTree)} {files : List String} :
    wfTree (.dir subs files) = true ↔
      (∀ f ∈ files, validName f = true) ∧ (∀ p ∈ subs, validName p.1 = true) ∧
      files.Nodup ∧ (subs.map Prod.fst).Nodup ∧
      ∀ p ∈ subs, wfTree p.2 = true := by
  rw [wfTree]
  simp [List.all_eq_true, wfSubs_iff, and_assoc]

/-! ### Every path produced under a directory extends that directory's path -/

theorem path_shape :
    ∀ (g : String) (t : FSTree), wfTree t = true →
      ∀ f fl n, (f, fl) ∈ walk g t → n ∈ fl →
        ∃ r : List Char, (osPathJoin f n).data = (withSep g).data ++ r ∧ r ≠ [] := by
  apply walk.induct
    (fun g t => wfTree t = true →
      ∀ f fl n, (f, fl) ∈ walk g t → n ∈ fl →
        ∃ r : List Char, (osPathJoin f n).data = (withSep g).data ++ r ∧ r ≠ [])
    (fun g subs =>
      (∀ p ∈ subs, validName p.1 = true ∧ wfTree p.2 = true) →
      ∀ f fl n, (f, fl) ∈ walkList g subs → n ∈ fl →
        ∃ r : List Char, (osPathJoin f n).data = (withSep g).data ++ r ∧ r ≠ [])
  · intro g subs files ih hwf f fl n hmem hn
    obtain ⟨hfiles, hnames, -, -, hsubs⟩ := wfTree_dir_iff.mp hwf
    rw [show walk g (FSTree.dir subs files) = (g, files) :: walkList g subs from rfl]
      at hmem
    rcases List.mem_cons.mp hmem with heq | htail
    · have hfeq : f = g := congrArg Prod.fst heq
      have hfleq : fl = files := congrArg Prod.snd heq
      subst hfeq
      subst hfleq
      have hv := hfiles n hn
      exact ⟨n.data, osPathJoin_data hv f, ((validName_iff n).mp hv).1⟩
    · exact ih (fun p hp => ⟨hnames p hp, hsubs p hp⟩) f fl n htail hn
  · intro g hfacts f fl n hmem hn
    simp [walkList] at hmem
  · intro g d t rest ih1 ih2 hfacts f fl n hmem hn
    have hd : validName d = true := (hfacts (d, t) (List.mem_cons_self _ _)).1
    have hwt : wfTree t = true := (hfacts (d, t) (List.mem_cons_self _ _)).2
    rw [show walkList g ((d, t) :: rest) = walk (osPathJoin g d) t ++ walkList g rest
      from rfl] at hmem
    rcases List.mem_append.mp hmem with hl | hr
    · obtain ⟨r, hre, -⟩ := ih1 hwt f fl n hl hn
      refine ⟨d.data ++ '/' :: r, ?_, by simp⟩
      rw [hre, withSep_osPathJoin_data hd]
      simp [List.append_assoc]
    · exact ih2 (fun p hp => hfacts p (List.mem_cons_of_mem _ hp)) f fl n hr hn

theorem collected_shape {g : String} {t : FSTree} (hwf : wfTree t = true)
    {p : String} (hp : p ∈ collected_paths g (some t)) :
    ∃ r : List Char, p.data = (withSep g).data ++ r ∧ r ≠ [] := by
  rcases mem_collected.mp hp with ⟨fl, hfl, n, hn, -, rfl⟩
  exact path_shape g t hwf fl.1 fl.2 n hfl hn

theorem collected_sub_shape {g d : String} {t : FSTree}
    (hd : validName d = true) (hwf : wfTree t = true) {p : String}
    (hp : p ∈ collected_paths (osPathJoin g d) (some t)) :
    ∃ r : List Char, p.data = (withSep g).data ++ (d.data ++ '/' :: r) := by
  obtain ⟨r, hre, -⟩ := collected_shape hwf hp
  rw [withSep_osPathJoin_data hd] at hre
  exact ⟨r, by rw [hre]; simp [List.append_assoc]⟩

theorem takeWhile_until_slash {l : List Char} (h : '/' ∉ l) (r : List Char) :
    List.takeWhile (fun c => !(c == '/')) (l ++ '/' :: r) = l := by
  induction l with
  | nil => simp [List.takeWhile_cons]
  | cons a as ih =>
    have ha : a ≠ '/' := fun hh => h (hh ▸ List.mem_cons_self a as)
    simp only [List.cons_append, List.takeWhile_cons]
    rw [if_pos (by simp [ha]), ih (fun hh => h (List.mem_cons_of_mem _ hh))]

theorem distinct_sub_paths {d₁ d₂ : String} (h₁ : validName d₁ = true)
    (h₂ : validName d₂ = true) (hne : d₁ ≠ d₂) {r₁ r₂ : List Char}
    (h : d₁.data ++ '/' :: r₁ = d₂.data ++ '/' :: r₂) : False := by
  have t₁ := takeWhile_until_slash ((validName_iff d₁).mp h₁).2 r₁
  have t₂ := takeWhile_until_slash ((validName_iff d₂).mp h₂).2 r₂
  rw [h, t₂] at t₁
  exact hne (String.ext t₁).symm

theorem flat_ne_sub {f d : String} (hf : validName f = true) {r : List Char}
    (h : f.data = d.data ++ '/' :: r) : False := by
  have : '/' ∈ f.data := by
    rw [h]
    exact List.mem_append_right _ (List.mem_cons_self _ _)
  exact ((validName_iff f).mp hf).2 this

/-! ### No duplicates among collected paths; encountered files have distinct paths -/

theorem collected_nodup :
    ∀ (g : String) (t : FSTree), wfTree t = true →
      (collected_paths g (some t)).Nodup := by
  apply walk.induct
    (fun g t => wfTree t = true → (collected_paths g (some t)).Nodup)
    (fun g subs =>
      (∀ p ∈ subs, validName p.1 = true ∧ wfTree p.2 = true) →
      (subs.map Prod.fst).Nodup → (collectSubs g subs).Nodup)
  · intro g subs files ih hwf
    obtain ⟨hfiles, hnames, hfnd, hdnd, hsubs⟩ := wfTree_dir_iff.mp hwf
    rw [collected_some_dir, List.nodup_append]
    refine ⟨?_, ih (fun p hp => ⟨hnames p hp, hsubs p hp⟩) hdnd, ?_⟩
    · refine List.Nodup.map_on ?_ (hfnd.filter _)
      intro x hx y hy hxy
      exact osPathJoin_right_inj (hfiles x (List.mem_of_mem_filter hx))
        (hfiles y (List.mem_of_mem_filter hy)) hxy
    · intro a ha hmem
      rcases List.mem_map.mp ha with ⟨fnm, hfin, rfl⟩
      have hvf := hfiles fnm (List.mem_of_mem_filter hfin)
      rcases mem_collectSubs.mp hmem with ⟨q, hq, hpq⟩
      obtain ⟨r, hr⟩ := collected_sub_shape (hnames q hq) (hsubs q hq) hpq
      rw [osPathJoin_data hvf] at hr
      exact flat_ne_sub hvf (List.append_cancel_left hr)
  · intro g hfacts hnd
    simp [collectSubs_nil]
  · intro g d t rest ih1 ih2 hfacts hnd
    have hd := (hfacts (d, t) (List.mem_cons_self _ _)).1
    have hwt := (hfacts (d, t) (List.mem_cons_self _ _)).2
    rw [List.map_cons] at hnd
    rw [collectSubs_cons, List.nodup_append]
    refine ⟨ih1 hwt,
      ih2 (fun p hp => hfacts p (List.mem_cons_of_mem _ hp)) hnd.of_cons, ?_⟩
    intro a ha hmem
    obtain ⟨r₁, hr₁⟩ := collected_sub_shape hd hwt ha
    rcases mem_collectSubs.mp hmem with ⟨q, hq, hpq⟩
    have hvd₂ := (hfacts q (List.mem_cons_of_mem _ hq)).1
    obtain ⟨r₂, hr₂⟩ :=
      collected_sub_shape hvd₂ (hfacts q (List.mem_cons_of_mem _ hq)).2 hpq
    rw [hr₁] at hr₂
    have hdne : d ≠ q.1 := by
      intro hcontra
      have hqm : d ∈ rest.map Prod.fst := by
        rw [hcontra]
        exact List.mem_map_of_mem Prod.fst hq
      exact (List.nodup_cons.mp hnd).1 hqm
    exact distinct_sub_paths hd hvd₂ hdne (List.append_cancel_left hr₂)

theorem walkList_shape {g : String} {subs : List (String × FSTree)}
    (hfacts : ∀ p ∈ subs, validName p.1 = true ∧ wfTree p.2 = true)
    {f fl : _} {n : String} (hmem : (f, fl) ∈ walkList g subs) (hn : n ∈ fl) :
    ∃ q ∈ subs, ∃ r : List Char,
      (osPathJoin f n).data = (withSep g).data ++ (q.1.data ++ '/' :: r) := by
  rw [walkList_eq_flatMap] at hmem
  rcases List.mem_flatMap.mp hmem with ⟨q, hq, hwalk⟩
  obtain ⟨r, hr, -⟩ :=
    path_shape (osPathJoin g q.1) q.2 (hfacts q hq).2 f fl n hwalk hn
  rw [withSep_osPathJoin_data (hfacts q hq).1] at hr
  exact ⟨q, hq, r, by rw [hr]; simp [List.append_assoc]⟩

theorem walk_encounter_inj :
    ∀ (g : String) (t : FSTree), wfTree t = true →
      ∀ f₁ fl₁ n₁ f₂ fl₂ n₂, (f₁, fl₁) ∈ walk g t → n₁ ∈ fl₁ →
        (f₂, fl₂) ∈ walk g t → n₂ ∈ fl₂ →
        osPathJoin f₁ n₁ = osPathJoin f₂ n₂ → f₁ = f₂ ∧ n₁ = n₂ := by
  apply walk.induct
    (fun g t => wfTree t = true →
      ∀ f₁ fl₁ n₁ f₂ fl₂ n₂, (f₁, fl₁) ∈ walk g t → n₁ ∈ fl₁ →
        (f₂, fl₂) ∈ walk g t → n₂ ∈ fl₂ →
        osPathJoin f₁ n₁ = osPathJoin f₂ n₂ → f₁ = f₂ ∧ n₁ = n₂)
    (fun g subs =>
      (∀ p ∈ subs, validName p.1 = true ∧ wfTree p.2 = true) →
      (subs.map Prod.fst).Nodup →
      ∀ f₁ fl₁ n₁ f₂ fl₂ n₂, (f₁, fl₁) ∈ walkList g subs → n₁ ∈ fl₁ →
        (f₂, fl₂) ∈ walkList g subs → n₂ ∈ fl₂ →
        osPathJoin f₁ n₁ = osPathJoin f₂ n₂ → f₁ = f₂ ∧ n₁ = n₂)
  · intro g subs files ih hwf f₁ fl₁ n₁ f₂ fl₂ n₂ h₁ hn₁ h₂ hn₂ heq
    obtain ⟨hfiles, hnames, -, hdnd, hsubs⟩ := wfTree_dir_iff.mp hwf
    have hfacts : ∀ p ∈ subs, validName p.1 = true ∧ wfTree p.2 = true :=
      fun p hp => ⟨hnames p hp, hsubs p hp⟩
    rw [show walk g (FSTree.dir subs files) = (g, files) :: walkList g subs
      from rfl] at h₁ h₂
    rcases List.mem_cons.mp h₁ with hh₁ | ht₁ <;>
      rcases List.mem_cons.mp h₂ with hh₂ | ht₂
    · have e₁ : f₁ = g := congrArg Prod.fst hh₁
      have e₂ : f₂ = g := congrArg Prod.fst hh₂
      have e₃ : fl₁ = files := congrArg Prod.snd hh₁
      have e₄ : fl₂ = files := congrArg Prod.snd hh₂
      subst e₁; subst e₃; subst e₄
      refine ⟨e₂.symm, ?_⟩
      rw [e₂] at heq
      exact osPathJoin_right_inj (hfiles n₁ hn₁) (hfiles n₂ hn₂) heq
    · exfalso
      have e₁ : f₁ = g := congrArg Prod.fst hh₁
      have e₃ : fl₁ = files := congrArg Prod.snd hh₁
      subst e₁; subst e₃
      have hvn₁ := hfiles n₁ hn₁
      obtain ⟨q, hq, r, hr⟩ := walkList_shape hfacts ht₂ hn₂
      rw [← heq, osPathJoin_data hvn₁] at hr
      exact flat_ne_sub hvn₁ (List.append_cancel_left hr)
    · exfalso
      have e₂ : f₂ = g := congrArg Prod.fst hh₂
      have e₄ : fl₂ = files := congrArg Prod.snd hh₂
      subst e₂; subst e₄
      have hvn₂ := hfiles n₂ hn₂
      obtain ⟨q, hq, r, hr⟩ := walkList_shape hfacts ht₁ hn₁
      rw [heq, osPathJoin_data hvn₂] at hr
      exact flat_ne_sub hvn₂ (List.append_cancel_left hr)
    · exact ih hfacts hdnd f₁ fl₁ n₁ f₂ fl₂ n₂ ht₁ hn₁ ht₂ hn₂ heq
  · intro g hfacts hnd f₁ fl₁ n₁ f₂ fl₂ n₂ h₁
    simp [walkList] at h₁
  · intro g d t rest ih1 ih2 hfacts hnd f₁ fl₁ n₁ f₂ fl₂ n₂ h₁ hn₁ h₂ hn₂ heq
    have hd := (hfacts (d, t) (List.mem_cons_self _ _)).1
    have hwt := (hfacts (d, t) (List.mem_cons_self _ _)).2
    have hfrest : ∀ p ∈ rest, validName p.1 = true ∧ wfTree p.2 = true :=
      fun p hp => hfacts p (List.mem_cons_of_mem _ hp)
    rw [List.map_cons] at hnd
    rw [show walkList g ((d, t) :: rest) = walk (osPathJoin g d) t ++ walkList g rest
      from rfl] at h₁ h₂
    rcases List.mem_append.mp h₁ with hl₁ | hr₁ <;>
      rcases List.mem_append.mp h₂ with hl₂ | hr₂
    · exact ih1 hwt f₁ fl₁ n₁ f₂ fl₂ n₂ hl₁ hn₁ hl₂ hn₂ heq
    · exfalso
      obtain ⟨r₁, hsh₁, -⟩ := path_shape (osPathJoin g d) t hwt f₁ fl₁ n₁ hl₁ hn₁
      rw [withSep_osPathJoin_data hd] at hsh₁
      obtain ⟨q, hq, r₂, hsh₂⟩ := walkList_shape hfrest hr₂ hn₂
      rw [← heq] at hsh₂
      rw [List.append_assoc] at hsh₁
      rw [hsh₁] at hsh₂
      have hdne : d ≠ q.1 := by
        intro hcontra
        have hqm : d ∈ rest.map Prod.fst := by
          rw [hcontra]
          exact List.mem_map_of_mem Prod.fst hq
        exact (List.nodup_cons.mp hnd).1 hqm
      exact distinct_sub_paths hd (hfrest q hq).1 hdne
        (by simpa using List.append_cancel_left hsh₂)
    · exfalso
      obtain ⟨r₂, hsh₂, -⟩ := path_shape (osPathJoin g d) t hwt f₂ fl₂ n₂ hl₂ hn₂
      rw [withSep_osPathJoin_data hd] at hsh₂
      obtain ⟨q, hq, r₁, hsh₁⟩ := walkList_shape hfrest hr₁ hn₁
      rw [heq] at hsh₁
      rw [List.append_assoc] at hsh₂
      rw [hsh₂] at hsh₁
      have hdne : d ≠ q.1 := by
        intro hcontra
        have hqm : d ∈ rest.map Prod.fst := by
          rw [hcontra]
          exact List.mem_map_of_mem Prod.fst hq
        exact (List.nodup_cons.mp hnd).1 hqm
      exact distinct_sub_paths hd (hfrest q hq).1 hdne
        (by simpa using List.append_cancel_left hsh₁)
    · exact ih2 hfrest hnd.of_cons f₁ fl₁ n₁ f₂ fl₂ n₂ hr₁ hn₁ hr₂ hn₂ heq

/-! ### Traversal enumeration order only permutes the collected list -/

theorem collected_perm_of_equiv {t₁ t₂ : FSTree} (h : FSEquiv t₁ t₂) :
    ∀ g, (collected_paths g (some t₁)).Perm (collected_paths g (some t₂)) := by
  refine @FSEquiv.rec
    (fun a b _ => ∀ g, (collected_paths g (some a)).Perm (collected_paths g (some b)))
    (fun a b _ => ∀ g, (collectSubs g a).Perm (collectSubs g b))
    ?_ ?_ ?_ ?_ ?_ t₁ t₂ h
  · intro s₁ s₂ f₁ f₂ hf hs ih g
    rw [collected_some_dir, collected_some_dir]
    exact ((hf.filter _).map _).append (ih g)
  · intro g
    exact .refl _
  · intro d u₁ u₂ r₁ r₂ ht hr iht ihr g
    rw [collectSubs_cons, collectSubs_cons]
    exact (iht (osPathJoin g d)).append (ihr g)
  · intro p q r g
    obtain ⟨d₁, u₁⟩ := p
    obtain ⟨d₂, u₂⟩ := q
    rw [collectSubs_cons, collectSubs_cons, collectSubs_cons, collectSubs_cons]
    exact List.perm_append_comm_assoc _ _ _
  · intro a b c hab hbc ihab ihbc g
    exact (ihab g).trans (ihbc g)

theorem collectSubs_perm_of_equiv {s₁ s₂ : List (String × FSTree)}
    (h : FSEquivSubs s₁ s₂) :
    ∀ g, (collectSubs g s₁).Perm (collectSubs g s₂) := by
  refine @FSEquivSubs.rec
    (fun a b _ => ∀ g, (collected_paths g (some a)).Perm (collected_paths g (some b)))
    (fun a b _ => ∀ g, (collectSubs g a).Perm (collectSubs g b))
    ?_ ?_ ?_ ?_ ?_ s₁ s₂ h
  · intro sa sb f₁ f₂ hf hs ih g
    rw [collected_some_dir, collected_some_dir]
    exact ((hf.filter _).map _).append (ih g)
  · intro g
    exact .refl _
  · intro d u₁ u₂ r₁ r₂ ht hr iht ihr g
    rw [collectSubs_cons, collectSubs_cons]
    exact (iht (osPathJoin g d)).append (ihr g)
  · intro p q r g
    obtain ⟨d₁, u₁⟩ := p
    obtain ⟨d₂, u₂⟩ := q
    rw [collectSubs_cons, collectSubs_cons, collectSubs_cons, collectSubs_cons]
    exact List.perm_append_comm_assoc _ _ _
  · intro a b c hab hbc ihab ihbc g
    exact (ihab g).trans (ihbc g)

/-! ### Sorting lemmas -/

theorem strLe_total (a b : String) : strLe a b = true ∨ strLe b a = true := by
  rcases le_total a b with h | h
  · exact Or.inl ((strLe_iff a b).mpr h)
  · exact Or.inr ((strLe_iff b a).mpr h)

theorem strLe_trans {a b c : String} (h₁ : strLe a b = true)
    (h₂ : strLe b c = true) : strLe a c = true :=
  (strLe_iff a c).mpr (le_trans ((strLe_iff a b).mp h₁) ((strLe_iff b c).mp h₂))

theorem strLe_antisymm {a b : String} (h₁ : strLe a b = true)
    (h₂ : strLe b a = true) : a = b :=
  le_antisymm ((strLe_iff a b).mp h₁) ((strLe_iff b a).mp h₂)

theorem sorted_paths_sorted (root_dir : String) (fs : Option FSTree) :
    List.Sorted (fun a b => strLe a b = true) (sorted_paths root_dir fs) := by
  haveI : IsTotal String (fun a b => strLe a b = true) := ⟨strLe_total⟩
  haveI : IsTrans String (fun a b => strLe a b = true) :=
    ⟨fun _ _ _ => strLe_trans⟩
  exact List.sorted_insertionSort _ _

theorem sorted_paths_perm (root_dir : String) (fs : Option FSTree) :
    (sorted_paths root_dir fs).Perm (collected_paths root_dir fs) :=
  List.perm_insertionSort _ _

theorem insertionSort_eq_of_perm {l₁ l₂ : List String} (h : l₁.Perm l₂) :
    List.insertionSort (fun a b => strLe a b = true) l₁ =
      List.insertionSort (fun a b => strLe a b = true) l₂ := by
  haveI : IsTotal String (fun a b => strLe a b = true) := ⟨strLe_total⟩
  haveI : IsTrans String (fun a b => strLe a b = true) :=
    ⟨fun _ _ _ => strLe_trans⟩
  haveI : IsAntisymm String (fun a b => strLe a b = true) :=
    ⟨fun _ _ => strLe_antisymm⟩
  refine List.eq_of_perm_of_sorted ?_ (List.sorted_insertionSort _ _)
    (List.sorted_insertionSort _ _)
  exact (List.perm_insertionSort _ _).trans
    (h.trans (List.perm_insertionSort _ _).symm)

theorem sorted_paths_strict {root_dir : String} {t : FSTree}
    (hwf : wfTree t = true) :
    List.Sorted (fun a b : String => a < b) (sorted_paths root_dir (some t)) := by
  have h1 : List.Pairwise (fun a b : String => a ≤ b)
      (sorted_paths root_dir (some t)) :=
    (sorted_paths_sorted root_dir (some t)).imp (fun h => (strLe_iff _ _).mp h)
  have h2 : (sorted_paths root_dir (some t)).Nodup :=
    (sorted_paths_perm root_dir (some t)).nodup_iff.mpr
      (collected_nodup root_dir t hwf)
  exact (h1.and h2).imp (fun h => lt_of_le_of_ne h.1 h.2)

/-! ### The document body -/

theorem strJoin_cons (s : String) (l : List String) :
    String.join (s :: l) = s ++ String.join l := by
  have key : ∀ (m : List String) (init : String),
      m.foldl (fun r q => r ++ q) init = init ++ m.foldl (fun r q => r ++ q) "" := by
    intro m
    induction m with
    | nil => intro init; simp [String.append_empty]
    | cons a as ih =>
      intro init
      rw [List.foldl_cons, List.foldl_cons, ih (init ++ a), ih ("" ++ a),
        String.empty_append, String.append_assoc]
  rw [String.join, String.join, List.foldl_cons, String.empty_append, key]

theorem written_append (l₁ l₂ : List Event) :
    written (l₁ ++ l₂) = written l₁ ++ written l₂ :=
  List.filterMap_append l₁ l₂ _

theorem document_eq (root_dir output_file : String) (fs : Option FSTree)
    (readF : String → Except String String) :
    document root_dir output_file fs readF =
      String.join ((sorted_paths root_dir fs).map (blockOf readF)) := by
  rw [document, runEvents]
  rw [show written (Event.openWrite output_file ::
        (sorted_paths root_dir fs).flatMap (pathEvents readF)) =
      written ((sorted_paths root_dir fs).flatMap (pathEvents readF)) from rfl]
  induction sorted_paths root_dir fs with
  | nil => rfl
  | cons p rest ih =>
    rw [List.flatMap_cons, written_append, List.map_cons]
    rw [show written (pathEvents readF p) = [delimiter p, readBlock readF p]
      from rfl]
    rw [show ([delimiter p, readBlock readF p] : List String) ++
        written (rest.flatMap (pathEvents readF)) =
      delimiter p :: readBlock readF p ::
        written (rest.flatMap (pathEvents readF)) from rfl]
    rw [strJoin_cons, strJoin_cons, strJoin_cons, ih, blockOf,
      String.append_assoc]

theorem filter_openWrite (output_file : String) (readF : String → Except String String)
    (paths : List String) :
    (Event.openWrite output_file :: paths.flatMap (pathEvents readF)).filter
        isOpenWriteEv = [Event.openWrite output_file] := by
  rw [List.filter_cons]
  rw [if_pos (by rfl)]
  have : (paths.flatMap (pathEvents readF)).filter isOpenWriteEv = [] := by
    induction paths with
    | nil => rfl
    | cons p rest ih => rw [List.flatMap_cons, List.filter_append, ih]; rfl
  rw [this]

theorem strJoin_append (l₁ l₂ : List String) :
    String.join (l₁ ++ l₂) = String.join l₁ ++ String.join l₂ := by
  induction l₁ with
  | nil => exact (String.empty_append _).symm
  | cons a as ih =>
    rw [List.cons_append, strJoin_cons, strJoin_cons, ih, String.append_assoc]

theorem readBlock_error {readF : String → Except String String} {p m : String}
    (herr : readF p = .error m) :
    readBlock readF p = "[ERROR READING FILE: " ++ m ++ "]" := by
  unfold readBlock
  rw [herr]

theorem readBlock_ok {readF : String → Except String String} {p c : String}
    (hok : readF p = .ok c) : readBlock readF p = c := by
  unfold readBlock
  rw [hok]

/-! ### The claims -/

/-- C1: every run opens the output file for writing exactly once (the only
open-for-write event is the one truncating `output_file`), and the document
body is the concatenation, over the sorted collected paths, of the block
`"\n\n===== FILE: " ++ p ++ " =====\n\n"` followed by the file's contents
or the error placeholder. -/
theorem C1_write_once_and_block_contract (root_dir output_file : String)
    (fs : Option FSTree) (readF : String → Except String String) :
    (runEvents root_dir output_file fs readF).filter isOpenWriteEv =
        [Event.openWrite output_file] ∧
    document root_dir output_file fs readF =
      String.join ((sorted_paths root_dir fs).map
        (fun p => ("\n\n===== FILE: " ++ p ++ " =====\n\n") ++ readBlock readF p)) :=
  ⟨filter_openWrite output_file readF _,
   by rw [document_eq]; rfl⟩

/-- C2: a file encountered during the traversal of a well-formed tree has
its full path collected iff its name ends with one of the configured
extensions, where matching means an exact, case-sensitive suffix
comparison against the seven extensions. -/
theorem C2_extension_filter (root_dir : String) (t : FSTree)
    (hwf : wfTree t = true) (folder : String) (fl : List String)
    (name : String) (hmem : (folder, fl) ∈ walk root_dir t) (hn : name ∈ fl) :
    (osPathJoin folder name ∈ collected_paths root_dir (some t) ↔
      matchesExt name = true) ∧
    (matchesExt name = true ↔ ∃ e ∈ exts, ∃ pre : String, name = pre ++ e) := by
  constructor
  · constructor
    · intro hmem2
      rcases mem_collected.mp hmem2 with ⟨fl₂, hfl₂, n₂, hn₂, hm₂, heq⟩
      obtain ⟨-, hne⟩ := walk_encounter_inj root_dir t hwf fl₂.1 fl₂.2 n₂
        folder fl name hfl₂ hn₂ hmem hn heq
      exact hne ▸ hm₂
    · intro hm
      exact mem_collected.mpr ⟨(folder, fl), hmem, name, hn, hm, rfl⟩
  · rw [matchesExt, List.any_eq_true]
    constructor
    · rintro ⟨e, he, hse⟩
      exact ⟨e, he, (strEndsWith_iff name e).mp hse⟩
    · rintro ⟨e, he, pre, hpre⟩
      exact ⟨e, he, (strEndsWith_iff name e).mpr ⟨pre, hpre⟩⟩

/-- Witness for C2 at a concrete tree and file. -/
theorem C2_extension_filter_witness :
    wfTree (FSTree.dir [] ["a.ts", "b.png"]) = true ∧
    ("./src", ["a.ts", "b.png"]) ∈ walk "./src" (FSTree.dir [] ["a.ts", "b.png"]) ∧
    "a.ts" ∈ ["a.ts", "b.png"] ∧
    ((osPathJoin "./src" "a.ts" ∈
        collected_paths "./src" (some (FSTree.dir [] ["a.ts", "b.png"])) ↔
      matchesExt "a.ts" = true) ∧
    (matchesExt "a.ts" = true ↔ ∃ e ∈ exts, ∃ pre : String, "a.ts" = pre ++ e)) :=
  ⟨by decide, by decide, by decide,
   C2_extension_filter "./src" (FSTree.dir [] ["a.ts", "b.png"]) (by decide)
     "./src" ["a.ts", "b.png"] "a.ts" (by decide) (by decide)⟩

/-- C3: on a well-formed tree the sorted path list is strictly ascending in
the codepoint-lexicographic order on full path strings, and it is unchanged
when the traversal enumerates directory entries in any other order. -/
theorem C3_sorted_strict_and_enum_independent (root_dir : String)
    {t t₂ : FSTree} (hwf : wfTree t = true) (heq : FSEquiv t t₂) :
    List.Sorted (fun a b : String => a < b) (sorted_paths root_dir (some t)) ∧
    sorted_paths root_dir (some t) = sorted_paths root_dir (some t₂) :=
  ⟨sorted_paths_strict hwf,
   insertionSort_eq_of_perm (collected_perm_of_equiv heq root_dir)⟩

/-- Witness for C3 at a concrete tree and a reordering of it. -/
theorem C3_sorted_strict_and_enum_independent_witness :
    wfTree (FSTree.dir [] ["b.md", "a.ts"]) = true ∧
    FSEquiv (FSTree.dir [] ["b.md", "a.ts"]) (FSTree.dir [] ["a.ts", "b.md"]) ∧
    (List.Sorted (fun a b : String => a < b)
        (sorted_paths "./src" (some (FSTree.dir [] ["b.md", "a.ts"]))) ∧
      sorted_paths "./src" (some (FSTree.dir [] ["b.md", "a.ts"])) =
        sorted_paths "./src" (some (FSTree.dir [] ["a.ts", "b.md"]))) :=
  ⟨by decide, FSEquiv.dir (List.Perm.swap "a.ts" "b.md" []) FSEquivSubs.nil,
   C3_sorted_strict_and_enum_independent "./src" (by decide)
     (FSEquiv.dir (List.Perm.swap "a.ts" "b.md" []) FSEquivSubs.nil)⟩

/-- C4: when reading a collected path fails, the failure stays local: the
file's delimiter is still written, the placeholder
`"[ERROR READING FILE: " ++ msg ++ "]"` replaces the contents, and every
other sorted path's block (before and after it) is still emitted; the
document is total, so the run never fails because of the unreadable file. -/
theorem C4_error_isolation (root_dir output_file : String) (fs : Option FSTree)
    (readF : String → Except String String) (p m : String)
    (l₁ l₂ : List String)
    (hsplit : sorted_paths root_dir fs = l₁ ++ p :: l₂)
    (herr : readF p = .error m) :
    document root_dir output_file fs readF =
      String.join (l₁.map (blockOf readF)) ++
        (delimiter p ++ ("[ERROR READING FILE: " ++ m ++ "]")) ++
        String.join (l₂.map (blockOf readF)) := by
  rw [document_eq, hsplit, List.map_append, List.map_cons, strJoin_append,
    strJoin_cons, blockOf, readBlock_error herr, ← String.append_assoc]

/-- Witness for C4: one unreadable file among two. -/
theorem C4_error_isolation_witness :
    sorted_paths "./src" (some (FSTree.dir [] ["bad.md", "a.ts"])) =
        ["./src/a.ts"] ++ "./src/bad.md" :: [] ∧
    (fun q : String => if q = "./src/bad.md" then (Except.error "boom" : Except String String)
      else Except.ok "x") "./src/bad.md" = Except.error "boom" ∧
    document "./src" "out.txt" (some (FSTree.dir [] ["bad.md", "a.ts"]))
        (fun q : String => if q = "./src/bad.md" then Except.error "boom"
          else Except.ok "x") =
      String.join ((["./src/a.ts"] : List String).map
          (blockOf (fun q : String => if q = "./src/bad.md" then Except.error "boom"
            else Except.ok "x"))) ++
        (delimiter "./src/bad.md" ++ ("[ERROR READING FILE: " ++ "boom" ++ "]")) ++
        String.join (([] : List String).map
          (blockOf (fun q : String => if q = "./src/bad.md" then Except.error "boom"
            else Except.ok "x"))) :=
  ⟨by decide, by rfl,
   C4_error_isolation "./src" "out.txt" (some (FSTree.dir [] ["bad.md", "a.ts"]))
     (fun q : String => if q = "./src/bad.md" then Except.error "boom"
       else Except.ok "x")
     "./src/bad.md" "boom" ["./src/a.ts"] [] (by decide) (by rfl)⟩

/-- C5: a qualifying file whose read succeeds with contents `c` contributes
exactly `c` to the document between its delimiter and the next block (or
the end of the document). -/
theorem C5_content_fidelity (root_dir output_file : String) (fs : Option FSTree)
    (readF : String → Except String String) (p c : String)
    (l₁ l₂ : List String)
    (hsplit : sorted_paths root_dir fs = l₁ ++ p :: l₂)
    (hok : readF p = .ok c) :
    document root_dir output_file fs readF =
      String.join (l₁.map (blockOf readF)) ++ (delimiter p ++ c) ++
        String.join (l₂.map (blockOf readF)) := by
  rw [document_eq, hsplit, List.map_append, List.map_cons, strJoin_append,
    strJoin_cons, blockOf, readBlock_ok hok, ← String.append_assoc]

/-- Witness for C5 at a concrete two-file tree. -/
theorem C5_content_fidelity_witness :
    sorted_paths "./src" (some (FSTree.dir [] ["b.md", "a.ts"])) =
        [] ++ "./src/a.ts" :: ["./src/b.md"] ∧
    (fun q : String => if q = "./src/a.ts" then (Except.ok "x" : Except String String)
      else Except.ok "y") "./src/a.ts" = Except.ok "x" ∧
    document "./src" "out.txt" (some (FSTree.dir [] ["b.md", "a.ts"]))
        (fun q : String => if q = "./src/a.ts" then Except.ok "x"
          else Except.ok "y") =
      String.join (([] : List String).map
          (blockOf (fun q : String => if q = "./src/a.ts" then Except.ok "x"
            else Except.ok "y"))) ++
        (delimiter "./src/a.ts" ++ "x") ++
        String.join ((["./src/b.md"] : List String).map
          (blockOf (fun q : String => if q = "./src/a.ts" then Except.ok "x"
            else Except.ok "y"))) :=
  ⟨by decide, by rfl,
   C5_content_fidelity "./src" "out.txt" (some (FSTree.dir [] ["b.md", "a.ts"]))
     (fun q : String => if q = "./src/a.ts" then Except.ok "x" else Except.ok "y")
     "./src/a.ts" "x" [] ["./src/b.md"] (by decide) (by rfl)⟩

/-- C6: the run is deterministic in the filesystem state: the same tree,
read behaviour, root and output path yield the same document, even when the
traversal enumerates directory entries in a different order. -/
theorem C6_deterministic (root_dir output_file : String) {t₁ t₂ : FSTree}
    (heq : FSEquiv t₁ t₂) (readF : String → Except String String) :
    document root_dir output_file (some t₁) readF =
      document root_dir output_file (some t₂) readF := by
  rw [document_eq, document_eq]
  rw [show sorted_paths root_dir (some t₁) = sorted_paths root_dir (some t₂) from
    insertionSort_eq_of_perm (collected_perm_of_equiv heq root_dir)]

/-- Witness for C6 at a concrete tree and a reordering of it. -/
theorem C6_deterministic_witness :
    FSEquiv (FSTree.dir [] ["b.md", "a.ts"]) (FSTree.dir [] ["a.ts", "b.md"]) ∧
    document "./src" "out.txt" (some (FSTree.dir [] ["b.md", "a.ts"]))
        (fun _ => Except.ok "x") =
      document "./src" "out.txt" (some (FSTree.dir [] ["a.ts", "b.md"]))
        (fun _ => Except.ok "x") :=
  ⟨FSEquiv.dir (List.Perm.swap "a.ts" "b.md" []) FSEquivSubs.nil,
   C6_deterministic "./src" "out.txt"
     (FSEquiv.dir (List.Perm.swap "a.ts" "b.md" []) FSEquivSubs.nil)
     (fun _ => Except.ok "x")⟩

/-- C7: with a missing root directory, or a root containing no qualifying
file, the run does not fail: no path is collected, the output file is still
opened for writing (created/truncated) and nothing is written to it, and
the output path is returned. -/
theorem C7_missing_or_empty_root (root_dir output_file : String)
    (readF : String → Except String String) (fs : Option FSTree)
    (h : fs = none ∨ noQualifying root_dir fs) :
    collected_paths root_dir fs = [] ∧
    document root_dir output_file fs readF = "" ∧
    runEvents root_dir output_file fs readF = [Event.openWrite output_file] ∧
    (collect_source_files root_dir output_file fs readF).ret = output_file := by
  have hc : collected_paths root_dir fs = [] := by
    rcases h with rfl | hq
    · rfl
    · rw [List.eq_nil_iff_forall_not_mem]
      intro p hp
      rcases mem_collected.mp hp with ⟨fl, hfl, n, hn, hm, -⟩
      rw [hq fl hfl n hn] at hm
      cases hm
  have hs : sorted_paths root_dir fs = [] := by
    rw [sorted_paths, hc]
    rfl
  refine ⟨hc, ?_, ?_, rfl⟩
  · rw [document_eq, hs]
    rfl
  · rw [runEvents, hs]
    rfl

/-- Witness for C7 with an absent root directory. -/
theorem C7_missing_or_empty_root_witness :
    ((none : Option FSTree) = none ∨ noQualifying "./src" none) ∧
    (collected_paths "./src" (none : Option FSTree) = [] ∧
    document "./src" "merged_source_dump.txt" none (fun _ => Except.ok "x") = "" ∧
    runEvents "./src" "merged_source_dump.txt" none (fun _ => Except.ok "x") =
      [Event.openWrite "merged_source_dump.txt"] ∧
    (collect_source_files "./src" "merged_source_dump.txt" none
      (fun _ => Except.ok "x")).ret = "merged_source_dump.txt") :=
  ⟨Or.inl rfl,
   C7_missing_or_empty_root "./src" "merged_source_dump.txt"
     (fun _ => Except.ok "x") none (Or.inl rfl)⟩

/-- C8: every completed invocation returns exactly the output path it was
given, and running the module performs one invocation with the defaults
(root `"./src"`, output `"merged_source_dump.txt"`) and prints the line
`"Merged document saved as: "` followed by that output path. -/
theorem C8_return_value_and_confirmation (root_dir output_file : String)
    (fs : Option FSTree) (readF : String → Except String String) (b : Bool) :
    (collect_source_files root_dir output_file fs readF).ret = output_file ∧
    defaultRootDir = "./src" ∧
    defaultOutputFile = "merged_source_dump.txt" ∧
    moduleEvents b fs readF =
      (collect_source_files defaultRootDir defaultOutputFile fs readF).events ++
        [Event.printOut ("Merged document saved as: " ++ defaultOutputFile)] ∧
    Event.printOut "Merged document saved as: merged_source_dump.txt" ∈
      moduleEvents b fs readF := by
  refine ⟨rfl, rfl, rfl, rfl, ?_⟩
  rw [moduleEvents]
  refine List.mem_append_right _ ?_
  rw [show (collect_source_files defaultRootDir defaultOutputFile fs readF).ret =
    defaultOutputFile from rfl]
  rw [show ("Merged document saved as: " ++ defaultOutputFile) =
    "Merged document saved as: merged_source_dump.txt" from by decide]
  exact List.mem_cons_self _ _

/-- C9: the module has no main-module guard: its top-level effects are the
same whether or not it is run as the main module, and they include the full
run (creating/truncating the output file) and the confirmation print, so
merely importing the module performs the whole run. -/
theorem C9_runs_on_import (fs : Option FSTree)
    (readF : String → Except String String) (b : Bool) :
    moduleEvents b fs readF = moduleEvents true fs readF ∧
    Event.openWrite defaultOutputFile ∈ moduleEvents b fs readF ∧
    Event.printOut ("Merged document saved as: " ++ defaultOutputFile) ∈
      moduleEvents b fs readF := by
  refine ⟨rfl, ?_, ?_⟩
  · rw [moduleEvents]
    exact List.mem_append_left _ (List.mem_cons_self _ _)
  · rw [moduleEvents]
    exact List.mem_append_right _ (List.mem_cons_self _ _)

/-- C10: on a well-formed tree the collected path list (and hence the
sorted block list) contains no duplicate path string: every qualifying
file contributes exactly one block. -/
theorem C10_no_duplicate_paths (root_dir : String) (t : FSTree)
    (hwf : wfTree t = true) :
    (collected_paths root_dir (some t)).Nodup ∧
    (sorted_paths root_dir (some t)).Nodup :=
  ⟨collected_nodup root_dir t hwf,
   (sorted_paths_perm root_dir (some t)).nodup_iff.mpr
     (collected_nodup root_dir t hwf)⟩

/-- Witness for C10 at a concrete nested tree. -/
theorem C10_no_duplicate_paths_witness :
    wfTree (FSTree.dir [("d", FSTree.dir [] ["a.ts"])] ["a.ts", "b.md"]) = true ∧
    ((collected_paths "./src"
        (some (FSTree.dir [("d", FSTree.dir [] ["a.ts"])] ["a.ts", "b.md"]))).Nodup ∧
      (sorted_paths "./src"
        (some (FSTree.dir [("d", FSTree.dir [] ["a.ts"])] ["a.ts", "b.md"]))).Nodup) :=
  ⟨by decide,
   C10_no_duplicate_paths "./src"
     (FSTree.dir [("d", FSTree.dir [] ["a.ts"])] ["a.ts", "b.md"]) (by decide)⟩
